import Mathlib

/-!
Verification of the local-frame rotation utility in
`animation_CircleAndChopperMakeVideo.py`.

The script's two pure functions are embedded over the real numbers:
`RotationAboutY` builds the 4×4 homogeneous rotation matrix about the
y-axis, and `getNewPosition_yellowPoint` conjugates it with the pose
`T_01` and performs the homogeneous divide.  Points are `Fin 3 → ℝ`,
matrices are Mathlib's `Matrix (Fin 4) (Fin 4) ℝ`, and `np.linalg.inv`
is Mathlib's matrix inverse (which coincides with the true inverse
whenever the determinant is a unit; the fallible variant
`getNewPosition_yellowPointE` models the `LinAlgError` raised by
`np.linalg.inv` on a singular input).
-/

open Real Matrix

/-- Embedding of `RotationAboutY` (source lines 21–43): the matrix of the
3-D rotation by `theta` about the y-axis, in homogeneous coordinates. -/
noncomputable def RotationAboutY (theta : ℝ) : Matrix (Fin 4) (Fin 4) ℝ :=
  !![Real.cos theta, 0, Real.sin theta, 0;
     0, 1, 0, 0;
     -Real.sin theta, 0, Real.cos theta, 0;
     0, 0, 0, 1]

/-- Homogenization of a 3-vector, embedding `np.block([[p], [1]])`
(source line 61). -/
def homog (p : Fin 3 → ℝ) : Fin 4 → ℝ := ![p 0, p 1, p 2, 1]

/-- Embedding of `getNewPosition_yellowPoint` (source lines 45–90):
homogenize `p`, apply `T_01 * R_y * T_01⁻¹`, then divide the first three
components by the fourth. -/
noncomputable def getNewPosition_yellowPoint (p : Fin 3 → ℝ) (angle : ℝ)
    (T_01 : Matrix (Fin 4) (Fin 4) ℝ) : Fin 3 → ℝ :=
  let p_tilde : Fin 4 → ℝ := homog p
  let R_y : Matrix (Fin 4) (Fin 4) ℝ := RotationAboutY angle
  let T_10 : Matrix (Fin 4) (Fin 4) ℝ := T_01⁻¹
  let T_Motion : Matrix (Fin 4) (Fin 4) ℝ := T_01 * R_y * T_10
  let q : Fin 4 → ℝ := T_Motion.mulVec p_tilde
  ![q 0 / q 3, q 1 / q 3, q 2 / q 3]

open Classical in
/-- Fallible embedding of `getNewPosition_yellowPoint`: `np.linalg.inv`
(source line 74) raises `numpy.linalg.LinAlgError` exactly on a singular
matrix, modelled as `none`; otherwise the call returns normally. -/
noncomputable def getNewPosition_yellowPointE (p : Fin 3 → ℝ) (angle : ℝ)
    (T_01 : Matrix (Fin 4) (Fin 4) ℝ) : Option (Fin 3 → ℝ) :=
  if T_01.det = 0 then none
  else some (getNewPosition_yellowPoint p angle T_01)

/-- Upper-left 3×3 block of a 4×4 homogeneous transform. -/
def rotBlock (T : Matrix (Fin 4) (Fin 4) ℝ) : Matrix (Fin 3) (Fin 3) ℝ :=
  !![T 0 0, T 0 1, T 0 2;
     T 1 0, T 1 1, T 1 2;
     T 2 0, T 2 1, T 2 2]

/-- Rigid transform: orthonormal upper-left 3×3 block and last row
`[0, 0, 0, 1]` (the spec's pose invariant). -/
def IsRigid (T : Matrix (Fin 4) (Fin 4) ℝ) : Prop :=
  (rotBlock T)ᵀ * rotBlock T = 1 ∧
    T 3 0 = 0 ∧ T 3 1 = 0 ∧ T 3 2 = 0 ∧ T 3 3 = 1

/-- Explicit inverse of a rigid transform `[R t; 0 1]`, namely
`[Rᵀ -Rᵀt; 0 1]`. -/
def rigidInv (T : Matrix (Fin 4) (Fin 4) ℝ) : Matrix (Fin 4) (Fin 4) ℝ :=
  !![T 0 0, T 1 0, T 2 0, -(T 0 0 * T 0 3 + T 1 0 * T 1 3 + T 2 0 * T 2 3);
     T 0 1, T 1 1, T 2 1, -(T 0 1 * T 0 3 + T 1 1 * T 1 3 + T 2 1 * T 2 3);
     T 0 2, T 1 2, T 2 2, -(T 0 2 * T 0 3 + T 1 2 * T 1 3 + T 2 2 * T 2 3);
     0, 0, 0, 1]

/-- The conjugation pipeline as the spec words it: position in the local
frame via `pose⁻¹`, rotation about the local y-axis, back to the global
frame via `pose`, then homogeneous-to-Cartesian division by the fourth
component.  Stated with sequential matrix–vector products, to be compared
with the source's single matrix `T_Motion`. -/
noncomputable def rotate_about_local_y_spec (p : Fin 3 → ℝ) (angle : ℝ)
    (pose : Matrix (Fin 4) (Fin 4) ℝ) : Fin 3 → ℝ :=
  let localP : Fin 4 → ℝ := pose⁻¹.mulVec (homog p)
  let rotated : Fin 4 → ℝ := (RotationAboutY angle).mulVec localP
  let globalP : Fin 4 → ℝ := pose.mulVec rotated
  ![globalP 0 / globalP 3, globalP 1 / globalP 3, globalP 2 / globalP 3]

/-- Plain 3×3 y-axis rotation matrix (the spec's reference for the
identity-pose case). -/
noncomputable def plainRotY (theta : ℝ) : Matrix (Fin 3) (Fin 3) ℝ :=
  !![Real.cos theta, 0, Real.sin theta;
     0, 1, 0;
     -Real.sin theta, 0, Real.cos theta]

/-- The pose `T_01` constructed in the script (source lines 147–154):
identity orientation, origin at `(-40, 0, -20)`. -/
def T_01_script : Matrix (Fin 4) (Fin 4) ℝ :=
  !![1, 0, 0, -40;
     0, 1, 0, 0;
     0, 0, 1, -20;
     0, 0, 0, 1]

/-- The start position of the yellow point in the script
(source line 137). -/
def p_script : Fin 3 → ℝ := ![-30, -10, -20]

/-- A non-rigid but invertible pose: uniform scaling by 2. -/
def T_scale : Matrix (Fin 4) (Fin 4) ℝ := Matrix.diagonal ![2, 2, 2, 1]

/-- Last row of a 4×4 homogeneous matrix equals `[0, 0, 0, 1]`. -/
def LastRowE (A : Matrix (Fin 4) (Fin 4) ℝ) : Prop :=
  A 3 0 = 0 ∧ A 3 1 = 0 ∧ A 3 2 = 0 ∧ A 3 3 = 1

lemma RotationAboutY_zero : RotationAboutY 0 = 1 := by
  ext i j
  fin_cases i <;> fin_cases j <;>
    simp [RotationAboutY, Matrix.one_apply, Matrix.vecHead, Matrix.vecTail]

lemma RotationAboutY_mul (a b : ℝ) :
    RotationAboutY a * RotationAboutY b = RotationAboutY (a + b) := by
  ext i j
  fin_cases i <;> fin_cases j <;>
    simp [RotationAboutY, Matrix.mul_apply, Fin.sum_univ_four,
      Real.cos_add, Real.sin_add] <;> ring

lemma lastRowE_rotY (theta : ℝ) : LastRowE (RotationAboutY theta) := by
  refine ⟨?_, ?_, ?_, ?_⟩ <;>
    simp [RotationAboutY, LastRowE, Matrix.vecHead, Matrix.vecTail]

lemma lastRowE_mul {A B : Matrix (Fin 4) (Fin 4) ℝ}
    (hA : LastRowE A) (hB : LastRowE B) : LastRowE (A * B) := by
  obtain ⟨a0, a1, a2, a3⟩ := hA
  obtain ⟨b0, b1, b2, b3⟩ := hB
  refine ⟨?_, ?_, ?_, ?_⟩ <;>
    simp [Matrix.mul_apply, Fin.sum_univ_four, a0, a1, a2, a3, b0, b1, b2, b3]

lemma rigid_left_inv {T : Matrix (Fin 4) (Fin 4) ℝ} (hT : IsRigid T) :
    rigidInv T * T = 1 := by
  obtain ⟨hR, h30, h31, h32, h33⟩ := hT
  have key : ∀ i j : Fin 3,
      ((rotBlock T)ᵀ * rotBlock T) i j = (1 : Matrix (Fin 3) (Fin 3) ℝ) i j :=
    fun i j => by rw [hR]
  have e00 := key 0 0
  have e01 := key 0 1
  have e02 := key 0 2
  have e10 := key 1 0
  have e11 := key 1 1
  have e12 := key 1 2
  have e20 := key 2 0
  have e21 := key 2 1
  have e22 := key 2 2
  simp [rotBlock, Matrix.mul_apply, Fin.sum_univ_three, Matrix.one_apply,
    Matrix.transpose_apply, Matrix.vecHead, Matrix.vecTail]
    at e00 e01 e02 e10 e11 e12 e20 e21 e22
  ext i j
  fin_cases i <;> fin_cases j <;>
    simp [rigidInv, Matrix.mul_apply, Fin.sum_univ_four, Matrix.one_apply,
      h30, h31, h32, h33, Matrix.vecHead, Matrix.vecTail] <;>
    linarith [e00, e01, e02, e10, e11, e12, e20, e21, e22]

lemma rigid_isUnit_det {T : Matrix (Fin 4) (Fin 4) ℝ} (hT : IsRigid T) :
    IsUnit T.det :=
  Matrix.isUnit_det_of_left_inverse (rigid_left_inv hT)

lemma rigid_inv_eq {T : Matrix (Fin 4) (Fin 4) ℝ} (hT : IsRigid T) :
    T⁻¹ = rigidInv T :=
  Matrix.inv_eq_left_inv (rigid_left_inv hT)

lemma rigid_mul_inv {T : Matrix (Fin 4) (Fin 4) ℝ} (hT : IsRigid T) :
    T * T⁻¹ = 1 :=
  Matrix.mul_nonsing_inv T (rigid_isUnit_det hT)

lemma rigid_inv_mul {T : Matrix (Fin 4) (Fin 4) ℝ} (hT : IsRigid T) :
    T⁻¹ * T = 1 :=
  Matrix.nonsing_inv_mul T (rigid_isUnit_det hT)

lemma lastRowE_rigidInv (T : Matrix (Fin 4) (Fin 4) ℝ) :
    LastRowE (rigidInv T) := by
  refine ⟨?_, ?_, ?_, ?_⟩ <;>
    simp [rigidInv, Matrix.vecHead, Matrix.vecTail]

lemma lastRowE_motion {T : Matrix (Fin 4) (Fin 4) ℝ} (hT : IsRigid T)
    (theta : ℝ) : LastRowE (T * RotationAboutY theta * T⁻¹) := by
  have h2 : LastRowE T⁻¹ := by
    rw [rigid_inv_eq hT]; exact lastRowE_rigidInv T
  exact lastRowE_mul (lastRowE_mul hT.2 (lastRowE_rotY theta)) h2

lemma motion_fourth {T : Matrix (Fin 4) (Fin 4) ℝ} (hT : IsRigid T)
    (theta : ℝ) (p : Fin 3 → ℝ) :
    ((T * RotationAboutY theta * T⁻¹).mulVec (homog p)) 3 = 1 := by
  obtain ⟨m0, m1, m2, m3⟩ := lastRowE_motion hT theta
  simp [Matrix.mulVec, Matrix.dotProduct, Fin.sum_univ_four,
    m0, m1, m2, m3, homog]

lemma getNewPosition_def (p : Fin 3 → ℝ) (angle : ℝ)
    (T_01 : Matrix (Fin 4) (Fin 4) ℝ) :
    getNewPosition_yellowPoint p angle T_01 =
      ![((T_01 * RotationAboutY angle * T_01⁻¹).mulVec (homog p)) 0 /
          ((T_01 * RotationAboutY angle * T_01⁻¹).mulVec (homog p)) 3,
        ((T_01 * RotationAboutY angle * T_01⁻¹).mulVec (homog p)) 1 /
          ((T_01 * RotationAboutY angle * T_01⁻¹).mulVec (homog p)) 3,
        ((T_01 * RotationAboutY angle * T_01⁻¹).mulVec (homog p)) 2 /
          ((T_01 * RotationAboutY angle * T_01⁻¹).mulVec (homog p)) 3] := rfl

lemma homog_getNewPosition {T : Matrix (Fin 4) (Fin 4) ℝ} (hT : IsRigid T)
    (theta : ℝ) (p : Fin 3 → ℝ) :
    homog (getNewPosition_yellowPoint p theta T) =
      (T * RotationAboutY theta * T⁻¹).mulVec (homog p) := by
  have h4 := motion_fourth hT theta p
  simp only [homog] at h4
  funext j
  fin_cases j <;> simp [homog, getNewPosition_def, h4]

lemma getNewPosition_comp {T : Matrix (Fin 4) (Fin 4) ℝ} (hT : IsRigid T)
    (a b : ℝ) (p : Fin 3 → ℝ) :
    getNewPosition_yellowPoint (getNewPosition_yellowPoint p b T) a T =
      getNewPosition_yellowPoint p (a + b) T := by
  have h1 : T⁻¹ * T = 1 := rigid_inv_mul hT
  have hM : (T * RotationAboutY a * T⁻¹) * (T * RotationAboutY b * T⁻¹) =
      T * RotationAboutY (a + b) * T⁻¹ := by
    simp only [Matrix.mul_assoc]
    rw [← Matrix.mul_assoc T⁻¹ T (RotationAboutY b * T⁻¹), h1, Matrix.one_mul,
      ← Matrix.mul_assoc (RotationAboutY a) (RotationAboutY b) T⁻¹,
      RotationAboutY_mul]
  rw [getNewPosition_def (getNewPosition_yellowPoint p b T) a,
    homog_getNewPosition hT b p]
  simp only [Matrix.mulVec_mulVec, hM]
  rw [← getNewPosition_def]

lemma getNewPosition_zero {T : Matrix (Fin 4) (Fin 4) ℝ} (hT : IsRigid T)
    (p : Fin 3 → ℝ) : getNewPosition_yellowPoint p 0 T = p := by
  have h : T * RotationAboutY 0 * T⁻¹ = 1 := by
    rw [RotationAboutY_zero, Matrix.mul_one, rigid_mul_inv hT]
  funext i
  rw [getNewPosition_def, h]
  fin_cases i <;> simp [Matrix.one_mulVec, homog]

lemma rigid_T01 : IsRigid T_01_script := by
  refine ⟨?_, ?_, ?_, ?_, ?_⟩
  · ext i j
    fin_cases i <;> fin_cases j <;>
      norm_num [rotBlock, T_01_script, Matrix.mul_apply, Fin.sum_univ_three,
        Matrix.one_apply, Matrix.transpose_apply, Matrix.vecHead,
        Matrix.vecTail, Fin.ext_iff]
  all_goals norm_num [T_01_script, Matrix.vecHead, Matrix.vecTail]

lemma step_eval (t : ℝ) :
    getNewPosition_yellowPoint p_script t T_01_script =
      ![10 * Real.cos t - 40, -10, -(10 * Real.sin t) - 20] := by
  rw [getNewPosition_def, rigid_inv_eq rigid_T01]
  funext i
  fin_cases i <;>
    simp [T_01_script, rigidInv, RotationAboutY, p_script, homog,
      Matrix.mul_apply, Matrix.mulVec, Matrix.dotProduct, Fin.sum_univ_four,
      Matrix.vecHead, Matrix.vecTail] <;> ring

lemma cos_pi_div_twenty_ge : (1 : ℝ) / 2 ≤ Real.cos (π / 20) := by
  have hpi := Real.pi_pos
  have h1 : Real.cos (π / 3) ≤ Real.cos (π / 20) :=
    Real.cos_le_cos_of_nonneg_of_le_pi (by positivity) (by linarith)
      (by linarith)
  rw [Real.cos_pi_div_three] at h1
  linarith

lemma sin_pi_div_twenty_pos : 0 < Real.sin (π / 20) := by
  have hpi := Real.pi_pos
  exact Real.sin_pos_of_pos_of_lt_pi (by positivity) (by linarith)

lemma not_rigid_T_scale : ¬ IsRigid T_scale := by
  intro h
  have h00 := congrFun (congrFun h.1 0) 0
  norm_num [rotBlock, T_scale, Matrix.mul_apply, Fin.sum_univ_three,
    Matrix.transpose_apply, Matrix.one_apply, Matrix.diagonal,
    Matrix.vecHead, Matrix.vecTail, Fin.ext_iff] at h00

lemma det_T_scale : T_scale.det = 8 := by
  rw [T_scale, Matrix.det_diagonal]
  norm_num [Fin.prod_univ_four, Matrix.vecHead, Matrix.vecTail]

lemma rotY_left_inv (theta : ℝ) :
    RotationAboutY (-theta) * RotationAboutY theta = 1 := by
  rw [RotationAboutY_mul, neg_add_cancel, RotationAboutY_zero]

lemma rotBlock_rotY_ortho (theta : ℝ) :
    (rotBlock (RotationAboutY theta))ᵀ * rotBlock (RotationAboutY theta) =
      1 := by
  ext i j
  fin_cases i <;> fin_cases j <;>
    simp [rotBlock, RotationAboutY, Matrix.mul_apply, Fin.sum_univ_three,
      Matrix.one_apply, Matrix.transpose_apply, Matrix.vecHead,
      Matrix.vecTail, Fin.ext_iff] <;>
    first
    | linear_combination Real.sin_sq_add_cos_sq theta
    | ring

/-- C1: for every point `p`, finite angle, and invertible pose `T_01`,
`getNewPosition_yellowPoint` equals the spec's conjugation pipeline:
homogenize `p`, apply `T_01 · R_y(angle) · T_01⁻¹`, then divide the
first three components of the result by the fourth. -/
theorem C1_conjugation_pipeline (p : Fin 3 → ℝ) (angle : ℝ)
    (T_01 : Matrix (Fin 4) (Fin 4) ℝ) (h : IsUnit T_01.det) :
    getNewPosition_yellowPoint p angle T_01 =
      rotate_about_local_y_spec p angle T_01 := by
  simp only [getNewPosition_yellowPoint, rotate_about_local_y_spec,
    Matrix.mulVec_mulVec, Matrix.mul_assoc]

/-- Witness for C1 at the script's own pose, point, and rotation step. -/
theorem C1_conjugation_pipeline_witness :
    IsUnit T_01_script.det ∧
      getNewPosition_yellowPoint p_script (π / 20) T_01_script =
        rotate_about_local_y_spec p_script (π / 20) T_01_script :=
  ⟨rigid_isUnit_det rigid_T01,
    C1_conjugation_pipeline p_script (π / 20) T_01_script
      (rigid_isUnit_det rigid_T01)⟩

/-- C2 counterexample: at the script's pose (identity orientation, origin
`(-40, 0, -20)`), point `(-30, -10, -20)` and angle `π/20`, the returned
point is not within `1e-6` of `(-36.9, -10.0, -17.0)`: the first
component equals `10·cos(π/20) − 40 ≥ −35`, more than `1.9` away from
`−36.9`. -/
theorem C2_concrete_scenario_counterexample :
    ¬ (|getNewPosition_yellowPoint p_script (π / 20) T_01_script 0 -
          (-36.9)| ≤ 1e-6 ∧
       |getNewPosition_yellowPoint p_script (π / 20) T_01_script 1 -
          (-10.0)| ≤ 1e-6 ∧
       |getNewPosition_yellowPoint p_script (π / 20) T_01_script 2 -
          (-17.0)| ≤ 1e-6) := by
  intro h
  obtain ⟨h0, -, -⟩ := h
  rw [step_eval] at h0
  have hc := cos_pi_div_twenty_ge
  rw [abs_le] at h0
  simp only [Matrix.cons_val_zero] at h0
  norm_num at h0
  linarith [h0.2]

/-- C2 amended: at the script's pose, point `(-30, -10, -20)` and angle
`π/20`, the function returns exactly
`(10·cos(π/20) − 40, −10, −10·sin(π/20) − 20)`, which is approximately
`(−30.123, −10.0, −21.564)`. -/
theorem C2_concrete_scenario_amended :
    getNewPosition_yellowPoint p_script (π / 20) T_01_script =
      ![10 * Real.cos (π / 20) - 40, -10,
        -(10 * Real.sin (π / 20)) - 20] :=
  step_eval (π / 20)

/-- C3 counterexample: the uniform-scaling pose `T_scale` is not rigid,
yet the call returns normally (no `LinAlgError`), so failure is not
"exactly when the pose matrix is non-rigid or singular". -/
theorem C3_error_conditions_counterexample :
    ¬ IsRigid T_scale ∧
      getNewPosition_yellowPointE p_script 0 T_scale ≠ none := by
  refine ⟨not_rigid_T_scale, ?_⟩
  rw [getNewPosition_yellowPointE, if_neg (by rw [det_T_scale]; norm_num)]
  simp

/-- C3 amended: the call fails (with `numpy.linalg.LinAlgError` raised by
`np.linalg.inv`, not an `InvalidTransform` error) exactly when the pose
matrix is singular; rigidity is never checked, and every invertible pose
— rigid or not — returns normally. -/
theorem C3_error_conditions_amended (p : Fin 3 → ℝ) (angle : ℝ)
    (T_01 : Matrix (Fin 4) (Fin 4) ℝ) :
    getNewPosition_yellowPointE p angle T_01 = none ↔ T_01.det = 0 := by
  rw [getNewPosition_yellowPointE]
  by_cases h : T_01.det = 0
  · simp [h]
  · simp [h]

/-- C4: for every angle `theta`, `RotationAboutY theta` is the standard
right-handed homogeneous rotation matrix about the y-axis,
`[[cosθ, 0, sinθ, 0], [0, 1, 0, 0], [−sinθ, 0, cosθ, 0], [0, 0, 0, 1]]`. -/
theorem C4_rotation_matrix_construction (theta : ℝ) :
    RotationAboutY theta =
      !![Real.cos theta, 0, Real.sin theta, 0;
         0, 1, 0, 0;
         -Real.sin theta, 0, Real.cos theta, 0;
         0, 0, 0, 1] := rfl

/-- C5: for every rigid pose, point, and angle, the fourth homogeneous
component of `T_01 · R_y(angle) · T_01⁻¹ · p_tilde` equals `1`, so the
final division in `getNewPosition_yellowPoint` is a division by `1`. -/
theorem C5_fourth_component_one {T_01 : Matrix (Fin 4) (Fin 4) ℝ}
    (hT : IsRigid T_01) (p : Fin 3 → ℝ) (angle : ℝ) :
    ((T_01 * RotationAboutY angle * T_01⁻¹).mulVec (homog p)) 3 = 1 :=
  motion_fourth hT angle p

/-- Witness for C5 at the script's pose, point, and rotation step. -/
theorem C5_fourth_component_one_witness :
    ((T_01_script * RotationAboutY (π / 20) * T_01_script⁻¹).mulVec
        (homog p_script)) 3 = 1 :=
  C5_fourth_component_one rigid_T01 p_script (π / 20)

/-- C6: for every rigid pose and point, rotating by the zero angle
returns the point unchanged. -/
theorem C6_zero_angle_identity {T : Matrix (Fin 4) (Fin 4) ℝ}
    (hT : IsRigid T) (p : Fin 3 → ℝ) :
    getNewPosition_yellowPoint p 0 T = p :=
  getNewPosition_zero hT p

/-- Witness for C6 at the script's pose and start point. -/
theorem C6_zero_angle_identity_witness :
    getNewPosition_yellowPoint p_script 0 T_01_script = p_script :=
  C6_zero_angle_identity rigid_T01 p_script

/-- C7: for every rigid pose, point, and angle, rotating by `theta` and
then by `−theta` returns the original point (exactly, in the real-number
model, hence within any floating-point tolerance). -/
theorem C7_round_trip {T : Matrix (Fin 4) (Fin 4) ℝ} (hT : IsRigid T)
    (p : Fin 3 → ℝ) (theta : ℝ) :
    getNewPosition_yellowPoint
        (getNewPosition_yellowPoint p theta T) (-theta) T = p := by
  rw [getNewPosition_comp hT (-theta) theta p, neg_add_cancel]
  exact getNewPosition_zero hT p

/-- Witness for C7 at the script's pose, start point, and rotation step. -/
theorem C7_round_trip_witness :
    getNewPosition_yellowPoint
        (getNewPosition_yellowPoint p_script (π / 20) T_01_script)
        (-(π / 20)) T_01_script = p_script :=
  C7_round_trip rigid_T01 p_script (π / 20)

/-- C8: for every rigid pose, point, angle, and iteration count `n`,
iterating the rotation `n` times with angle `theta` equals a single
application with angle `n·theta`; moreover the angle matters only modulo
`2π`, so `n·theta` may be reduced mod `2π` without changing the result
(exactly, in the real-number model). -/
theorem C8_iteration_composition {T : Matrix (Fin 4) (Fin 4) ℝ}
    (hT : IsRigid T) (p : Fin 3 → ℝ) (theta : ℝ) (n : ℕ) :
    (fun q => getNewPosition_yellowPoint q theta T)^[n] p =
        getNewPosition_yellowPoint p (n * theta) T ∧
      ∀ k : ℤ, getNewPosition_yellowPoint p (n * theta + k * (2 * π)) T =
        getNewPosition_yellowPoint p (n * theta) T := by
  constructor
  · induction n with
    | zero =>
      simp only [Function.iterate_zero_apply, Nat.cast_zero, zero_mul]
      exact (getNewPosition_zero hT p).symm
    | succ m ih =>
      rw [Function.iterate_succ_apply', ih,
        getNewPosition_comp hT theta (m * theta) p,
        show theta + (m : ℝ) * theta = ((m + 1 : ℕ) : ℝ) * theta by
          push_cast; ring]
  · intro k
    have hR : RotationAboutY ((n : ℝ) * theta + k * (2 * π)) =
        RotationAboutY ((n : ℝ) * theta) := by
      ext i j
      fin_cases i <;> fin_cases j <;>
        simp [RotationAboutY, Real.cos_add_int_mul_two_pi,
          Real.sin_add_int_mul_two_pi, Matrix.vecHead, Matrix.vecTail]
    rw [getNewPosition_def, getNewPosition_def, hR]

/-- Witness for C8 at the script's pose, start point, rotation step, and
two iterations. -/
theorem C8_iteration_composition_witness :
    (fun q => getNewPosition_yellowPoint q (π / 20) T_01_script)^[2]
          p_script =
        getNewPosition_yellowPoint p_script ((2 : ℕ) * (π / 20))
          T_01_script ∧
      ∀ k : ℤ, getNewPosition_yellowPoint p_script
          ((2 : ℕ) * (π / 20) + k * (2 * π)) T_01_script =
        getNewPosition_yellowPoint p_script ((2 : ℕ) * (π / 20))
          T_01_script :=
  C8_iteration_composition rigid_T01 p_script (π / 20) 2

/-- C9: with the identity pose, the function reduces exactly to the plain
3×3 y-axis rotation matrix applied to `p`, for every point and angle. -/
theorem C9_identity_pose (p : Fin 3 → ℝ) (theta : ℝ) :
    getNewPosition_yellowPoint p theta 1 = (plainRotY theta).mulVec p := by
  rw [getNewPosition_def, inv_one, Matrix.mul_one]
  funext i
  fin_cases i <;>
    simp [RotationAboutY, plainRotY, homog, Matrix.mulVec,
      Matrix.dotProduct, Fin.sum_univ_four, Fin.sum_univ_three,
      Matrix.vecHead, Matrix.vecTail]

/-- C10: for every angle, `RotationAboutY theta` is itself a rigid
homogeneous transform: orthonormal upper-left block with determinant 1,
last row and last column `[0, 0, 0, 1]`, invertible, and its inverse is
`RotationAboutY (−theta)`. -/
theorem C10_rotY_rigid (theta : ℝ) :
    IsRigid (RotationAboutY theta) ∧
      (RotationAboutY theta) 0 3 = 0 ∧ (RotationAboutY theta) 1 3 = 0 ∧
        (RotationAboutY theta) 2 3 = 0 ∧
      (rotBlock (RotationAboutY theta)).det = 1 ∧
      IsUnit (RotationAboutY theta).det ∧
      (RotationAboutY theta)⁻¹ = RotationAboutY (-theta) := by
  refine ⟨⟨rotBlock_rotY_ortho theta, lastRowE_rotY theta⟩, ?_, ?_, ?_,
    ?_, ?_, ?_⟩
  · simp [RotationAboutY, Matrix.vecHead, Matrix.vecTail]
  · simp [RotationAboutY, Matrix.vecHead, Matrix.vecTail]
  · simp [RotationAboutY, Matrix.vecHead, Matrix.vecTail]
  · rw [Matrix.det_fin_three]
    simp [rotBlock, RotationAboutY, Matrix.vecHead, Matrix.vecTail]
    linear_combination Real.sin_sq_add_cos_sq theta
  · exact Matrix.isUnit_det_of_left_inverse (rotY_left_inv theta)
  · exact Matrix.inv_eq_left_inv (rotY_left_inv theta)
